import Mathlib

/-!
Verification of the Tachyon IR core (src/source/ir/instructions.js) and the
x86 emission driver (src/unnamed/part_000) against its specification.

The JavaScript source is shallowly embedded: the IR type lattice becomes an
inductive type, validating instruction initialisers become functions into
`Option` (where `none` models an assertion failure / thrown error), and the
mutable constant-uniquing table and phi nodes become explicit state passing.
-/

namespace Tachyon

/-- The IR value type enumeration (`IRType` in instructions.js).  Each member
of the source's `IRType` object is a distinct `IRTypeObj` singleton; equality
of types in the source is object identity (`===`), which the derived
decidable equality models.  `PLATFORM_PTR_SIZE` is 8 in the source, so the
64-bit integer types are present. -/
inductive IRType where
  | none
  | box
  | rptr
  | u8
  | u16
  | u32
  | u64
  | i8
  | i16
  | i32
  | i64
  | f64
deriving DecidableEq, Repr, Fintype

/-- `IRType.pint = IRType.i64`: on a 64-bit platform (`PLATFORM_PTR_SIZE == 8`)
the source binds `IRType.pint` to the very same object as `IRType.i64`. -/
def IRType.pint : IRType := IRType.i64

/-- `IRTypeObj.prototype.toString` returns the type's `name` field. -/
def IRType.name : IRType → String
  | .none => "none"
  | .box => "box"
  | .rptr => "rptr"
  | .u8 => "u8"
  | .u16 => "u16"
  | .u32 => "u32"
  | .u64 => "u64"
  | .i8 => "i8"
  | .i16 => "i16"
  | .i32 => "i32"
  | .i64 => "i64"
  | .f64 => "f64"

/-- `IRTypeObj.prototype.isPtrType`: true for `rptr` and `box`. -/
def IRType.isPtrType : IRType → Bool
  | .rptr => true
  | .box => true
  | _ => false

/-- `IRTypeObj.prototype.isIntType`: true for the eight integer widths. -/
def IRType.isIntType : IRType → Bool
  | .u8 => true
  | .u16 => true
  | .u32 => true
  | .u64 => true
  | .i8 => true
  | .i16 => true
  | .i32 => true
  | .i64 => true
  | _ => false

/-- `IRTypeObj.prototype.isFPType`: true for `f64` only. -/
def IRType.isFPType : IRType → Bool
  | .f64 => true
  | _ => false

/-- `IRTypeObj.prototype.isNumberType`: integer or floating-point. -/
def IRType.isNumberType (t : IRType) : Bool :=
  t.isIntType || t.isFPType

/-- Modelled from the spec: `IRTypeObj.isUnsigned` is invoked by the backend
configuration in src/unnamed/part_000 but is defined in repository code not
present under src/.  The spec's type lattice (section 3) lists
"signed/unsigned integers of widths 8/16/32/64", so the unsigned types are
exactly `u8, u16, u32, u64`. -/
def IRType.isUnsigned : IRType → Bool
  | .u8 => true
  | .u16 => true
  | .u32 => true
  | .u64 => true
  | _ => false

/-- Modelled from the spec: `IRTypeObj.isSigned` is invoked by the backend
configuration in src/unnamed/part_000 but is defined in repository code not
present under src/.  Per the spec's type lattice, the signed integer types
are exactly `i8, i16, i32, i64`. -/
def IRType.isSigned : IRType → Bool
  | .i8 => true
  | .i16 => true
  | .i32 => true
  | .i64 => true
  | _ => false

/-- Reading the `type` property of an `IRTypeObj` instance.  The `IRTypeObj`
constructor in instructions.js assigns only `name` and `size`, and its
prototype carries only methods, so `someTypeObj.type` is `undefined` (here:
`none`) for every IR type object.  The `FPToIInstr` initialiser reads this
property. -/
def IRTypeObj.typeProp : IRType → Option IRType := fun _ => Option.none

/-!
## Constant values and the uniquing table (`ConstValue`)
-/

/-- A JavaScript literal stored in a `ConstValue`.  JS numbers are modelled as
rationals (enough to express `Math.floor(value) == value`), together with the
string and `undefined` literals the IR uses. -/
inductive JSVal where
  | num (q : ℚ)
  | str (s : String)
  | undef
deriving DecidableEq, Repr

/-- `typeof value == 'number'` for a JS literal. -/
def JSVal.isNumberLit : JSVal → Bool
  | .num _ => true
  | _ => false

/-- `Math.floor(value) == value` for a JS number literal (false on
non-numbers, where the source only tests it conjoined with the typeof
check). -/
def JSVal.isWholeLit : JSVal → Bool
  | .num q => q.den == 1
  | _ => false

/-- `typeof value == 'string'`. -/
def JSVal.isStringLit : JSVal → Bool
  | .str _ => true
  | _ => false

/-- The three assertions of the `ConstValue` constructor: integer types
require whole-number literals, float types require number literals, and
string literals are admitted only at type `box`. -/
def ConstValue.isValid (value : JSVal) (type : IRType) : Bool :=
  (!type.isIntType || (value.isNumberLit && value.isWholeLit)) &&
  (!type.isFPType || value.isNumberLit) &&
  (type == IRType.box || !value.isStringLit)

/-- First-match association-list lookup, modelling `HashMap.getItem` /
`hasItem`. -/
def alistLookup {α β : Type} [DecidableEq α] : List (α × β) → α → Option β
  | [], _ => Option.none
  | (k, v) :: rest, key => if key = k then some v else alistLookup rest key

/-- Replace the binding of `key` (modelling in-place mutation of the value
object held in a `HashMap` slot). -/
def alistUpdate {α β : Type} [DecidableEq α] : List (α × β) → α → β → List (α × β)
  | [], _, _ => []
  | (k, v) :: rest, key, newV =>
      if key = k then (k, newV) :: rest else (k, v) :: alistUpdate rest key newV

/-- State of the process-wide `ConstValue.constMap`: a map of literal values
to maps of types to constants.  A constant object's identity is modelled by
an allocation counter `nextId`; `new ConstValue(...)` hands out the next
fresh identity. -/
structure ConstState where
  constMap : List (JSVal × List (IRType × Nat))
  nextId : Nat
deriving DecidableEq, Repr

/-- The empty uniquing table (`ConstValue.constMap = new HashMap()`). -/
def ConstState.empty : ConstState := ⟨[], 0⟩

/-- `ConstValue.getConst(value, type)`: if there is no type map for this
value, create one and add it; if the type map has no constant for this type,
create a new `ConstValue` (running its validating constructor — a failed
assertion is `none`) and add it; otherwise return the existing constant.
Returns the constant's identity and the updated table. -/
def ConstValue.getConst (value : JSVal) (type : IRType) (s : ConstState) :
    Option (Nat × ConstState) :=
  match alistLookup s.constMap value with
  | some typeMap =>
    match alistLookup typeMap type with
    | some c => some (c, s)
    | Option.none =>
      if ConstValue.isValid value type then
        some (s.nextId,
          ⟨alistUpdate s.constMap value ((type, s.nextId) :: typeMap), s.nextId + 1⟩)
      else Option.none
  | Option.none =>
    if ConstValue.isValid value type then
      some (s.nextId, ⟨(value, [(type, s.nextId)]) :: s.constMap, s.nextId + 1⟩)
    else Option.none

/-- The table holds constant `c` for the pair `(value, type)`. -/
def ConstState.Holds (s : ConstState) (value : JSVal) (type : IRType) (c : Nat) : Prop :=
  ∃ typeMap, alistLookup s.constMap value = some typeMap ∧
    alistLookup typeMap type = some c

/-- Well-formedness of the uniquing table: every stored identity is below the
allocation counter, and identities are globally injective (two table entries
with the same identity are the same entry). -/
def ConstState.WF (s : ConstState) : Prop :=
  (∀ value type c, s.Holds value type c → c < s.nextId) ∧
  (∀ v₁ t₁ v₂ t₂ c, s.Holds v₁ t₁ c → s.Holds v₂ t₂ c → v₁ = v₂ ∧ t₁ = t₂)

/-- One successful `getConst` call, as a step relation on table states. -/
def ConstState.Step (s s' : ConstState) : Prop :=
  ∃ value type c, ConstValue.getConst value type s = some (c, s')

/-- Any number of further `getConst` calls. -/
def ConstState.Reachable : ConstState → ConstState → Prop :=
  Relation.ReflTransGen ConstState.Step

/-!
## Phi instructions (`PhiInstr`)
-/

/-- An IR value as seen by a phi node; only its `type` field is relevant to
the phi invariants. -/
structure PhiVal where
  type : IRType
deriving DecidableEq, Repr

/-- A phi node: parallel `uses` and `preds` arrays (predecessor blocks are
identified by block id) and the node's output type. -/
structure PhiInstr where
  uses : List PhiVal
  preds : List Nat
  type : IRType
deriving DecidableEq, Repr

/-- The `PhiInstr` constructor's loop asserting
`values[i].type === values[i-1].type` for `i = 1 .. length-1`. -/
def phiTypesConsistent : List PhiVal → Bool
  | [] => true
  | [_] => true
  | a :: b :: rest => (b.type == a.type) && phiTypesConsistent (b :: rest)

/-- The `PhiInstr(values, preds)` constructor: asserts one predecessor per
use and uniform input types, then sets
`this.type = this.uses.length ? this.uses[0].type : IRType.none`. -/
def PhiInstr.construct (values : List PhiVal) (preds : List Nat) : Option PhiInstr :=
  if values.length = preds.length then
    if phiTypesConsistent values then
      some ⟨values, preds,
        match values.head? with
        | some v => v.type
        | Option.none => IRType.none⟩
    else Option.none
  else Option.none

/-- `PhiInstr.prototype.addIncoming(value, pred)`: if there are already
inputs, assert `value.type === this.uses[0].type`; otherwise set the phi
node's type to `value.type`.  Then push onto `uses` and `preds`. -/
def PhiInstr.addIncoming (phi : PhiInstr) (value : PhiVal) (pred : Nat) : Option PhiInstr :=
  match phi.uses.head? with
  | some u0 =>
    if value.type = u0.type then
      some { phi with uses := phi.uses ++ [value], preds := phi.preds ++ [pred] }
    else Option.none
  | Option.none =>
    some { uses := phi.uses ++ [value], preds := phi.preds ++ [pred], type := value.type }

/-- Phi well-formedness: parallel arrays of equal length, all input types
equal to the output type, and type `none` when empty. -/
def PhiInstr.WF (phi : PhiInstr) : Prop :=
  phi.uses.length = phi.preds.length ∧
  (∀ u ∈ phi.uses, u.type = phi.type) ∧
  (phi.uses = [] → phi.type = IRType.none)

/-!
## Instruction initialisers (`instrMaker` / `untypedInstrMaker` clients)

Each instruction kind's `initFunc` inspects the partitioned constructor
arguments (type parameters, input values, branch targets) and either throws
(modelled as `none`) or sets the instruction's output type (and side-effect
flag where applicable).  Input values are represented by their types, which
is all the initialisers inspect.
-/

/-- `AddInstr`'s initFunc: two inputs; `(rptr, pint)` or two matching
`box`/numeric inputs; output type is input 0's type. -/
def AddInstr.init (inputTypes : List IRType) : Option IRType :=
  match inputTypes with
  | [t0, t1] =>
    if (t0 = IRType.rptr ∧ t1 = IRType.pint) ∨
       ((t0 = IRType.box ∨ t0.isNumberType) ∧ t1 = t0) then
      some t0
    else Option.none
  | _ => Option.none

/-- `SubInstr`'s initFunc: two inputs; `(rptr, pint)`, `(rptr, rptr)` or two
matching `box`/numeric inputs; output type is `pint` in the `(rptr, rptr)`
case and input 0's type otherwise. -/
def SubInstr.init (inputTypes : List IRType) : Option IRType :=
  match inputTypes with
  | [t0, t1] =>
    if (t0 = IRType.rptr ∧ t1 = IRType.pint) ∨
       (t0 = IRType.rptr ∧ t1 = IRType.rptr) ∨
       ((t0 = IRType.box ∨ t0.isNumberType) ∧ t1 = t0) then
      if t0 = IRType.rptr ∧ t1 = IRType.rptr then some IRType.pint
      else some t0
    else Option.none
  | _ => Option.none

/-- `instrMaker`'s `setName`: builds the mnemonic of an instruction kind
whose initFunc did not set one.  With type parameters, append `_<param>` for
each; otherwise, when all input types equal the first input's type, append
`_<type>` once unless there are no inputs or that type is `box`; otherwise
append `_<type>` for every input in order.  (`'_' + t` stringifies the type
object via `toString`, i.e. its name.) -/
def setName (mnemonic : String) (typeParams : List IRType) (inputTypes : List IRType) : String :=
  if typeParams.length > 0 then
    typeParams.foldl (fun m t => m ++ "_" ++ t.name) mnemonic
  else
    let firstType : Option IRType := inputTypes.head?
    let allSame := inputTypes.all (fun t => some t = firstType)
    if allSame then
      match firstType with
      | some ft => if ft ≠ IRType.box then mnemonic ++ "_" ++ ft.name else mnemonic
      | Option.none => mnemonic
    else
      inputTypes.foldl (fun m t => m ++ "_" ++ t.name) mnemonic

/-- `untypedInstrMaker`'s generated initFunc.  `branchNames` is the maker's
branch-name list (`none` when absent); `sideEffectsDefined` records whether
the maker's `sideEffects` argument was passed (the source sets
`this.sideEffects = (sideEffects !== undefined)`).  Validates the input
count, that all inputs are boxed, and the branch-target arity (when
`branchNames` is absent and targets are supplied, the source's assert
expression throws on `branchNames.length`; either way construction fails).
Returns (output type, sideEffects flag). -/
def untypedInit (numInputs : Nat) (branchNames : Option (List (Option String)))
    (voidOutput : Bool) (sideEffectsDefined : Bool)
    (inputTypes : List IRType) (numBranchTargets : Nat) : Option (IRType × Bool) :=
  if inputTypes.length = numInputs then
    if inputTypes.all (fun t => t = IRType.box) then
      if (match branchNames with
          | Option.none => numBranchTargets == 0
          | some names => numBranchTargets == names.length) then
        some ((if voidOutput then IRType.none else IRType.box), sideEffectsDefined)
      else Option.none
    else Option.none
  else Option.none

/-- `JumpInstr = untypedInstrMaker('jump', 0, [undefined], true)`: zero
inputs, one (unnamed) branch target, void output.  No `sideEffects` argument
is passed, so the generated initFunc sees `sideEffects === undefined`. -/
def JumpInstr.init : List IRType → Nat → Option (IRType × Bool) :=
  untypedInit 0 (some [Option.none]) true false

/-- `SeqInstr = untypedInstrMaker('seq', 2, undefined, false, new CompInstr())`:
two boxed inputs, no branch targets, non-void output.  The `CompInstr`
prototype object occupies the `sideEffects` parameter position, so
`sideEffects !== undefined` holds. -/
def SeqInstr.init : List IRType → Nat → Option (IRType × Bool) :=
  untypedInit 2 Option.none false true

/-- `NseqInstr = untypedInstrMaker('nseq', 2, undefined, false, new CompInstr())`:
identical validation to `seq`. -/
def NseqInstr.init : List IRType → Nat → Option (IRType × Bool) :=
  untypedInit 2 Option.none false true

/-- `FPToIInstr`'s initFunc.  Both count checks are
`instrMaker.validNumParams(inputVals, 1)` / `validNumInputs(inputVals, 1)`
(the first one is passed `inputVals`, not `typeParams`).  The assertion reads
`typeParams[0].type` — when `typeParams` is empty this access throws, and on
an `IRTypeObj` the `type` property is `undefined` (`IRTypeObj.typeProp`) —
and conjoins `typeParams[0] === IRType.pint`.  On success the output type
would be `typeParams[0]`. -/
def FPToIInstr.init (typeParams : List IRType) (inputVals : List IRType) : Option IRType :=
  if inputVals.length = 1 then
    if inputVals.length = 1 then
      match typeParams.head? with
      | some tp =>
        if IRTypeObj.typeProp tp = some IRType.f64 ∧ tp = IRType.pint then
          some tp
        else Option.none
      | Option.none => Option.none
    else Option.none
  else Option.none

/-!
## x86 emission driver (`x86.irToASM`, src/unnamed/part_000)

The assembler is modelled as a list of emitted items, appended to exactly as
the source appends instructions to `asm`.  Blocks are identified by their
`blockId`; the CFG is an environment mapping a block id to its `preds`,
`succs` and instruction list.  An abstract merge move (an element of an
edge's `mergeMoves` list, passed to `x86.insertMove`) is identified by a
move id, and an instruction's `genCode` output is abstracted as a single
`code` item — claim-relevant structure, not instruction-internal bytes.
-/

/-- Labels created by the driver: one per block, one per CFG edge. -/
inductive AsmLabel where
  | blockLabel (blockId : Nat)
  | edgeLabel (predId : Nat) (succId : Nat)
deriving DecidableEq, Repr

/-- An item appended to the assembler stream. -/
inductive AsmItem where
  | label (l : AsmLabel)
  | move (moveId : Nat)
  | jmp (l : AsmLabel)
  | code (instrId : Nat)
deriving DecidableEq, Repr

/-- A basic block as the driver sees it: predecessor ids, successor ids, and
instructions as (instrId, isPseudo) pairs — `isPseudo` is the source's
`instanceof ArgValInstr / GetNumArgsInstr / GetArgTableInstr / PhiInstr`
test. -/
structure BlockInfo where
  preds : List Nat
  succs : List Nat
  instrs : List (Nat × Bool)

/-- `x86.insertEdgeTrans(asm, pred, succ, mergeMoves, blockLabels,
edgeLabels, params)`: append the edge-transition label, then each merge move
of the edge in order, then a jump to the successor's block label. -/
def x86insertEdgeTrans (mergeMoves : Nat → Nat → List Nat)
    (asm : List AsmItem) (pred succ : Nat) : List AsmItem :=
  let asm := asm ++ [AsmItem.label (.edgeLabel pred succ)]
  let asm := (mergeMoves pred succ).foldl (fun a m => a ++ [AsmItem.move m]) asm
  asm ++ [AsmItem.jmp (.blockLabel succ)]

/-- The body of `x86.irToASM`'s block loop for one block: first a transition
stub for every predecessor that does not have exactly one successor, then
the block's label, then per instruction (skipping pseudo-instructions) its
pre-moves followed by its code, and finally — when the block has exactly one
successor — the transition stub for that edge. -/
def x86emitBlock (env : Nat → BlockInfo) (preMoves : Nat → List Nat)
    (mergeMoves : Nat → Nat → List Nat)
    (asm : List AsmItem) (blockId : Nat) : List AsmItem :=
  let block := env blockId
  let asm := block.preds.foldl
    (fun a p =>
      if (env p).succs.length = 1 then a
      else x86insertEdgeTrans mergeMoves a p blockId)
    asm
  let asm := asm ++ [AsmItem.label (.blockLabel blockId)]
  let asm := block.instrs.foldl
    (fun a instr =>
      if instr.2 then a
      else ((preMoves instr.1).foldl (fun a' m => a' ++ [AsmItem.move m]) a) ++
        [AsmItem.code instr.1])
    asm
  match block.succs with
  | [s] => x86insertEdgeTrans mergeMoves asm blockId s
  | _ => asm

/-- The block loop of `x86.irToASM`, starting from the assembler state
`asm0` left by the prologue. -/
def x86irToASM (env : Nat → BlockInfo) (preMoves : Nat → List Nat)
    (mergeMoves : Nat → Nat → List Nat)
    (blockOrder : List Nat) (asm0 : List AsmItem) : List AsmItem :=
  blockOrder.foldl (x86emitBlock env preMoves mergeMoves) asm0

/-- Spec-side description of an edge-transition stub, following the claim's
words: the edge label, the edge's merge moves in order, and a jump to the
successor's block label. -/
def specEdgeStub (mergeMoves : Nat → Nat → List Nat) (pred succ : Nat) : List AsmItem :=
  [AsmItem.label (.edgeLabel pred succ)] ++
  (mergeMoves pred succ).map AsmItem.move ++
  [AsmItem.jmp (.blockLabel succ)]

/-- Spec-side description of a block's instruction emission: for each
non-pseudo instruction, its pre-moves followed by its code. -/
def specInstrCode (preMoves : Nat → List Nat) (instrs : List (Nat × Bool)) : List AsmItem :=
  ((instrs.filter (fun i => !i.2)).map
    (fun i => (preMoves i.1).map AsmItem.move ++ [AsmItem.code i.1])).flatten

/-- Spec-side description of what the driver emits for one block, following
the claim's words: before the block's label, one edge-transition stub per
predecessor with more than one successor; then the label and the block's
instructions; then, when the block has exactly one successor, that edge's
stub directly after. -/
def specBlockChunk (env : Nat → BlockInfo) (preMoves : Nat → List Nat)
    (mergeMoves : Nat → Nat → List Nat) (blockId : Nat) : List AsmItem :=
  (((env blockId).preds.filter (fun p => (env p).succs.length > 1)).map
    (fun p => specEdgeStub mergeMoves p blockId)).flatten ++
  [AsmItem.label (.blockLabel blockId)] ++
  specInstrCode preMoves (env blockId).instrs ++
  (match (env blockId).succs with
   | [s] => specEdgeStub mergeMoves blockId s
   | _ => [])

/-!
## Abstract move lowering (`x86.insertMove`)
-/

/-- An `x86.Operand`: register, memory location (`x86.MemLoc`) or
immediate. -/
inductive X86Opnd where
  | reg (id : Nat)
  | memLoc (id : Nat)
  | immediate (value : Int)
deriving DecidableEq, Repr

/-- `instanceof x86.MemLoc`. -/
def X86Opnd.isMemLoc : X86Opnd → Bool
  | .memLoc _ => true
  | _ => false

/-- The source of an abstract move: either an x86 operand or a `ConstValue`
(abstracted by an identifier; `x86.getImmSize` / `getImmValue` are supplied
as functions of it). -/
inductive MoveSrc where
  | opnd (o : X86Opnd)
  | constVal (c : Nat)
deriving DecidableEq, Repr

/-- An abstract move; the destination is an x86 operand (the source asserts
`move.dst instanceof x86.Operand`). -/
structure AbsMove where
  src : MoveSrc
  dst : X86Opnd
deriving DecidableEq, Repr

/-- Instructions `x86.insertMove` can emit. -/
inductive MovAsm where
  | mov (dst : X86Opnd) (src : X86Opnd)
  | nop
deriving DecidableEq, Repr

/-- An emitted instruction is a `mov` with both source and destination in
memory. -/
def MovAsm.isMemMemMov : MovAsm → Bool
  | .mov dst src => dst.isMemLoc && src.isMemLoc
  | .nop => false

/-- `x86.insertMove(asm, move, params)`: for an operand source, assert that
source and destination are not both memory locations (`none` on failure) and
emit `mov dst, src`; for a constant source whose immediate size is defined
and fits the register width, emit `mov dst, imm`; otherwise the unfinished
fallthrough emits `nop`. -/
def x86insertMove (getImmSize : Nat → Option Nat) (getImmValue : Nat → Int)
    (regSizeBits : Nat) (move : AbsMove) : Option (List MovAsm) :=
  match move.src with
  | .opnd srcOp =>
    if srcOp.isMemLoc && move.dst.isMemLoc then Option.none
    else some [MovAsm.mov move.dst srcOp]
  | .constVal c =>
    match getImmSize c with
    | some immSize =>
      if immSize ≤ regSizeBits then
        some [MovAsm.mov move.dst (X86Opnd.immediate (getImmValue c))]
      else some [MovAsm.nop]
    | Option.none => some [MovAsm.nop]

/-!
## Modulo lowering (`ModInstr.prototype.x86`)
-/

/-- The x86 registers named by the backend configuration objects under
scrutiny. -/
inductive X86Reg where
  | rax
  | eax
  | rdx
  | edx
deriving DecidableEq, Repr

/-- Instructions emitted by `ModInstr.prototype.x86.genCode`; operands are
abstract (type `α`). -/
inductive ModAsmInstr (α : Type) where
  | mov (dst : X86Reg) (imm : Int)
  | div (opnd : α)
  | idiv (opnd : α)
  | cqo
  | cdq
deriving DecidableEq, Repr

/-- `ModInstr.prototype.x86.opndMustBeReg`: operand 0 must be a register. -/
def ModInstr.x86opndMustBeReg (idx : Nat) : Bool :=
  idx == 0

/-- `ModInstr.prototype.x86.opndRegSet`: operand 0 is restricted to
`rax`/`eax`. -/
def ModInstr.x86opndRegSet (idx : Nat) : Option (List X86Reg) :=
  if idx = 0 then some [X86Reg.rax, X86Reg.eax] else Option.none

/-- `ModInstr.prototype.x86.destIsOpnd0` returns false. -/
def ModInstr.x86destIsOpnd0 : Bool := false

/-- `ModInstr.prototype.x86.destMustBeReg` returns true. -/
def ModInstr.x86destMustBeReg : Bool := true

/-- `ModInstr.prototype.x86.destRegSet`: the result is taken from
`rdx`/`edx`. -/
def ModInstr.x86destRegSet : List X86Reg :=
  [X86Reg.rdx, X86Reg.edx]

/-- Modelled from the spec: the `type` property of the shared
`ModInstr.prototype.x86` configuration object (a `new x86.InstrCfg()` with
individual hooks overridden; `x86.InstrCfg` itself is repository code not
present under src/).  Nothing in src/ assigns a `type` to it, and the spec's
backend policy-descriptor contract (section 4.5) gives descriptors only the
listed hooks — no `type` field — so reading `this.type` on it yields
`undefined` (`none`). -/
def ModInstr.x86cfgTypeProp : Option IRType := Option.none

/-- `ModInstr.prototype.x86.genCode`: computes `xDX` (`rdx` on x86-64,
`edx` otherwise), then branches on `this.type.isUnsigned()`.  At the
driver's call site (`instr.x86.genCode(instr, ...)`) `this` is the shared
configuration object, so `this.type` is `ModInstr.x86cfgTypeProp` — not the
instruction's output type; with the property `undefined`, the
`isUnsigned()` method call throws (`none`).  Were the property a type, the
unsigned branch would move 0 into xDX then emit `div opnds[1]`, and the
other branch `cqo`/`cdq` then `idiv opnds[1]`. -/
def ModInstr.x86genCode {α : Type} [Inhabited α] (x86_64 : Bool)
    (opnds : List α) : Option (List (ModAsmInstr α)) :=
  let xDX : X86Reg := if x86_64 then X86Reg.rdx else X86Reg.edx
  match ModInstr.x86cfgTypeProp with
  | some ty =>
    if ty.isUnsigned then
      some [ModAsmInstr.mov xDX 0, ModAsmInstr.div (opnds[1]!)]
    else
      some ((if x86_64 then [ModAsmInstr.cqo] else [ModAsmInstr.cdq]) ++
        [ModAsmInstr.idiv (opnds[1]!)])
  | Option.none => Option.none

/-- Spec-side helper for the mnemonic-synthesis claim: the string
`_<name t1>_<name t2>...` for a list of types. -/
def typeSuffixes : List IRType → String
  | [] => ""
  | t :: rest => "_" ++ t.name ++ typeSuffixes rest

/-!
## Theorems
-/

theorem typeSuffixes_foldl (l : List IRType) (base : String) :
    l.foldl (fun m t => m ++ "_" ++ t.name) base = base ++ typeSuffixes l := by
  induction l generalizing base with
  | nil => simp [typeSuffixes]
  | cons a rest ih =>
    simp only [List.foldl_cons, typeSuffixes, ih]
    rw [String.append_assoc, String.append_assoc, String.append_assoc]

/-- **C3** Arithmetic typing: `add` and `sub` accept two inputs of the same
`box` or numeric type and output that type; `add` additionally accepts
`(rptr, pint) → rptr`; `sub` additionally accepts `(rptr, pint) → rptr` and
`(rptr, rptr) → pint`; every other input-type combination is rejected at
construction. -/
theorem addSub_arith_typing :
    (∀ t : IRType, (t = IRType.box ∨ t.isNumberType = true) →
      AddInstr.init [t, t] = some t ∧ SubInstr.init [t, t] = some t) ∧
    AddInstr.init [IRType.rptr, IRType.pint] = some IRType.rptr ∧
    SubInstr.init [IRType.rptr, IRType.pint] = some IRType.rptr ∧
    SubInstr.init [IRType.rptr, IRType.rptr] = some IRType.pint ∧
    (∀ t0 t1 : IRType, (AddInstr.init [t0, t1]).isSome = true ↔
      ((t0 = IRType.rptr ∧ t1 = IRType.pint) ∨
       ((t0 = IRType.box ∨ t0.isNumberType = true) ∧ t1 = t0))) ∧
    (∀ t0 t1 : IRType, (SubInstr.init [t0, t1]).isSome = true ↔
      ((t0 = IRType.rptr ∧ t1 = IRType.pint) ∨
       (t0 = IRType.rptr ∧ t1 = IRType.rptr) ∨
       ((t0 = IRType.box ∨ t0.isNumberType = true) ∧ t1 = t0))) ∧
    (∀ ts : List IRType, ts.length ≠ 2 →
      AddInstr.init ts = Option.none ∧ SubInstr.init ts = Option.none) := by
  refine ⟨by decide, by decide, by decide, by decide, by decide, by decide, ?_⟩
  intro ts h
  match ts, h with
  | [], _ => exact ⟨rfl, rfl⟩
  | [a], _ => exact ⟨rfl, rfl⟩
  | [a, b], h => exact absurd rfl h
  | a :: b :: c :: rest, _ => exact ⟨rfl, rfl⟩

theorem addSub_arith_typing_witness :
    AddInstr.init [IRType.i32, IRType.i32] = some IRType.i32 ∧
    AddInstr.init [] = Option.none :=
  ⟨(addSub_arith_typing.1 IRType.i32 (Or.inr (by decide))).1,
   (addSub_arith_typing.2.2.2.2.2.2 [] (by decide)).1⟩

/-- **C4** Mnemonic synthesis: when an instruction kind has no fixed
mnemonic, the constructed mnemonic is the base name suffixed with `_<t>` for
each explicit type parameter when type parameters are present; otherwise,
when the inputs are non-empty and all input types equal a common type other
than `box`, suffixed once with that type's name; otherwise (input types not
all the same) suffixed with every input's type name in input order — the
claim's two `otherwise` clauses being nested as in the source: when all
input types are `box` (or there are no inputs) nothing is appended.  In
particular `add` of two `i32` inputs gets mnemonic `add_i32`. -/
theorem setName_mnemonic_synthesis :
    (∀ (base : String) (tps ins : List IRType), tps ≠ [] →
      setName base tps ins = base ++ typeSuffixes tps) ∧
    (∀ (base : String) (ins : List IRType) (t : IRType), ins ≠ [] →
      (∀ u ∈ ins, u = t) → t ≠ IRType.box →
      setName base [] ins = base ++ "_" ++ t.name) ∧
    (∀ (base : String) (ins : List IRType), (¬ ∀ u ∈ ins, ∀ v ∈ ins, u = v) →
      setName base [] ins = base ++ typeSuffixes ins) ∧
    (∀ (base : String) (ins : List IRType), (∀ u ∈ ins, u = IRType.box) →
      setName base [] ins = base) ∧
    setName "add" [] [IRType.i32, IRType.i32] = "add_i32" := by
  refine ⟨?_, ?_, ?_, ?_, by decide⟩
  · intro base tps ins h
    unfold setName
    rw [if_pos (List.length_pos.mpr h)]
    exact typeSuffixes_foldl tps base
  · intro base ins t hne hall hbox
    match ins, hne with
    | h0 :: rest, _ =>
      have h0t : h0 = t := hall h0 (List.mem_cons_self _ _)
      subst h0t
      unfold setName
      rw [if_neg (by simp)]
      simp only [List.head?_cons]
      rw [if_pos, if_pos hbox]
      simp only [List.all_eq_true, decide_eq_true_eq]
      intro u hu
      rw [hall u hu]
  · intro base ins hne
    match ins with
    | [] => exact absurd (by simp) hne
    | h0 :: rest =>
      have hnall : ¬ ∀ u ∈ h0 :: rest, u = h0 :=
        fun hall => hne (fun u hu v hv => by rw [hall u hu, hall v hv])
      unfold setName
      rw [if_neg (by simp)]
      simp only [List.head?_cons]
      rw [if_neg]
      · exact typeSuffixes_foldl _ base
      · simp only [List.all_eq_true, decide_eq_true_eq, Option.some.injEq]
        exact fun hall => hnall (fun u hu => (hall u hu).symm ▸ rfl)
  · intro base ins hall
    match ins with
    | [] => rfl
    | h0 :: rest =>
      have h0b : h0 = IRType.box := hall h0 (List.mem_cons_self _ _)
      subst h0b
      unfold setName
      rw [if_neg (by simp)]
      simp only [List.head?_cons]
      rw [if_pos, if_neg (by simp)]
      simp only [List.all_eq_true, decide_eq_true_eq]
      intro u hu
      rw [hall u hu]

theorem setName_mnemonic_synthesis_witness :
    setName "unbox" [IRType.pint] [IRType.box] = "unbox" ++ typeSuffixes [IRType.pint] ∧
    setName "add" [] [IRType.i32, IRType.i32] = "add" ++ "_" ++ IRType.i32.name ∧
    setName "or" [] [IRType.box, IRType.i64] = "or" ++ typeSuffixes [IRType.box, IRType.i64] :=
  ⟨setName_mnemonic_synthesis.1 "unbox" [IRType.pint] [IRType.box] (by decide),
   setName_mnemonic_synthesis.2.1 "add" [IRType.i32, IRType.i32] IRType.i32
     (by decide) (by decide) (by decide),
   setName_mnemonic_synthesis.2.2.1 "or" [IRType.box, IRType.i64] (by decide)⟩

/-- **C5** counterexample: a `jump` constructed with one branch target
succeeds but its `sideEffects` flag is `false`, not `true` as the claim
states — `untypedInstrMaker('jump', 0, [undefined], true)` passes no
`sideEffects` argument, so `(sideEffects !== undefined)` is false. -/
theorem jumpInstr_sideEffects_cex :
    JumpInstr.init [] 1 = some (IRType.none, false) ∧ (false : Bool) ≠ true := by
  exact ⟨by decide, by decide⟩

/-- **C5** (amended): every `jump` construction requires exactly one branch
target (and zero inputs), the output type is `none`, and the `sideEffects`
flag is left `false`. -/
theorem jumpInstr_construction :
    (∀ (ins : List IRType) (n : Nat),
      (JumpInstr.init ins n).isSome = true ↔ (ins = [] ∧ n = 1)) ∧
    JumpInstr.init [] 1 = some (IRType.none, false) := by
  constructor
  · intro ins n
    cases ins with
    | nil => simp [JumpInstr.init, untypedInit]
    | cons a rest => simp [JumpInstr.init, untypedInit]
  · decide

/-- **C6** The claim states `ftoi<pint>` with one `f64` input constructs with
output type `pint`; in the source, `FPToIInstr`'s initialiser asserts
`typeParams[0].type === IRType.f64`, but an `IRTypeObj` has no `type`
property, so the assertion fails and construction throws for every argument
list — including the claimed `ftoi<pint>(v : f64)` — a slip the spec's
design notes themselves flag (the intent being
`inputVals[0].type === f64 && typeParams[0] === pint`). -/
theorem ftoi_construction_fails :
    FPToIInstr.init [IRType.pint] [IRType.f64] = Option.none ∧
    (∀ typeParams inputVals, FPToIInstr.init typeParams inputVals = Option.none) := by
  refine ⟨by decide, ?_⟩
  intro tps ins
  unfold FPToIInstr.init
  split_ifs
  · cases htp : tps.head? with
    | none => rfl
    | some tp => simp [IRTypeObj.typeProp]
  · rfl

/-- **C10** Every successfully constructed `seq` / `nseq` instruction has
exactly two inputs, both of type `box`, no branch targets, output type
`box`, and `sideEffects = true` (the `CompInstr` prototype object occupies
`untypedInstrMaker`'s `sideEffects` parameter position, making
`sideEffects !== undefined` hold). -/
theorem seq_nseq_construction :
    (∀ (ins : List IRType) (n : Nat), (SeqInstr.init ins n).isSome = true ↔
      (ins = [IRType.box, IRType.box] ∧ n = 0)) ∧
    SeqInstr.init [IRType.box, IRType.box] 0 = some (IRType.box, true) ∧
    (∀ (ins : List IRType) (n : Nat), (NseqInstr.init ins n).isSome = true ↔
      (ins = [IRType.box, IRType.box] ∧ n = 0)) ∧
    NseqInstr.init [IRType.box, IRType.box] 0 = some (IRType.box, true) := by
  have key : ∀ (ins : List IRType) (n : Nat),
      (untypedInit 2 Option.none false true ins n).isSome = true ↔
      (ins = [IRType.box, IRType.box] ∧ n = 0) := by
    intro ins n
    match ins with
    | [] => simp [untypedInit]
    | [a] => simp [untypedInit]
    | [a, b] =>
      unfold untypedInit
      split_ifs <;> simp_all
    | a :: b :: c :: rest => simp [untypedInit]
  exact ⟨key, by decide, key, by decide⟩

/-- **C9** The claim says the mod emitter requires the dividend (operand 0)
in `rax`/`eax`, takes the result from `rdx`/`edx`, and dispatches on the
instruction's output type — unsigned: `mov rdx/edx, 0` then `div`; signed:
`cqo`/`cdq` then `idiv`.  The register-constraint parts hold, and the
dispatch is the spec's stated Modulo rule (and what the sibling `MulInstr`
hooks do, via `instr.type`), but the source's `genCode` reads `this.type`
on the shared per-kind configuration object, which has no `type` property,
so `this.type.isUnsigned()` throws and emission fails for every mod
instruction — on both 64-bit and 32-bit targets and for any operands —
instead of emitting either sequence. -/
theorem modInstr_lowering_fails :
    ModInstr.x86opndMustBeReg 0 = true ∧
    ModInstr.x86opndRegSet 0 = some [X86Reg.rax, X86Reg.eax] ∧
    ModInstr.x86destMustBeReg = true ∧
    ModInstr.x86destRegSet = [X86Reg.rdx, X86Reg.edx] ∧
    ModInstr.x86destIsOpnd0 = false ∧
    ModInstr.x86genCode true [(0 : Nat), 1] = Option.none ∧
    (∀ (α : Type) [Inhabited α] (x64 : Bool) (opnds : List α),
      ModInstr.x86genCode x64 opnds = Option.none) := by
  exact ⟨rfl, rfl, rfl, rfl, rfl, rfl, fun α _ x64 opnds => rfl⟩

/-- **C8** Move-lowering safety: whatever list of instructions
`x86.insertMove` emits, none is a `mov` with both source and destination in
memory; and an abstract move whose source and destination are both memory
operands is rejected (assertion failure, `none`) rather than emitted. -/
theorem insertMove_no_mem_mem :
    (∀ (getImmSize : Nat → Option Nat) (getImmValue : Nat → Int) (regSizeBits : Nat)
       (move : AbsMove) (emitted : List MovAsm),
      x86insertMove getImmSize getImmValue regSizeBits move = some emitted →
      ∀ item ∈ emitted, item.isMemMemMov = false) ∧
    (∀ (getImmSize : Nat → Option Nat) (getImmValue : Nat → Int) (regSizeBits : Nat)
       (move : AbsMove) (o : X86Opnd),
      move.src = MoveSrc.opnd o → o.isMemLoc = true → move.dst.isMemLoc = true →
      x86insertMove getImmSize getImmValue regSizeBits move = Option.none) := by
  constructor
  · intro gis giv rsz move emitted hsome item hitem
    cases hsrc : move.src with
    | opnd o =>
      simp only [x86insertMove, hsrc] at hsome
      split at hsome
      next => exact absurd hsome (by simp)
      next hcond =>
        injection hsome with h
        subst h
        simp only [List.mem_singleton] at hitem
        subst hitem
        simp only [MovAsm.isMemMemMov]
        cases ho : o.isMemLoc <;> cases hd : move.dst.isMemLoc <;> simp_all
    | constVal c =>
      simp only [x86insertMove, hsrc] at hsome
      cases hg : gis c with
      | some sz =>
        simp only [hg] at hsome
        split at hsome
        next =>
          injection hsome with h
          subst h
          simp only [List.mem_singleton] at hitem
          subst hitem
          simp [MovAsm.isMemMemMov, X86Opnd.isMemLoc]
        next =>
          injection hsome with h
          subst h
          simp only [List.mem_singleton] at hitem
          subst hitem
          rfl
      | none =>
        simp only [hg] at hsome
        injection hsome with h
        subst h
        simp only [List.mem_singleton] at hitem
        subst hitem
        rfl
  · intro gis giv rsz move o hsrc ho hd
    simp only [x86insertMove, hsrc]
    rw [if_pos (by rw [ho, hd]; rfl)]

theorem insertMove_no_mem_mem_witness :
    (MovAsm.mov (X86Opnd.memLoc 1) (X86Opnd.reg 0)).isMemMemMov = false ∧
    x86insertMove (fun _ => Option.none) (fun _ => 0) 64
      ⟨MoveSrc.opnd (X86Opnd.memLoc 0), X86Opnd.memLoc 1⟩ = Option.none :=
  ⟨insertMove_no_mem_mem.1 (fun _ => Option.none) (fun _ => 0) 64
      ⟨MoveSrc.opnd (X86Opnd.reg 0), X86Opnd.memLoc 1⟩
      [MovAsm.mov (X86Opnd.memLoc 1) (X86Opnd.reg 0)] (by decide)
      (MovAsm.mov (X86Opnd.memLoc 1) (X86Opnd.reg 0)) (by decide),
   insertMove_no_mem_mem.2 (fun _ => Option.none) (fun _ => 0) 64
      ⟨MoveSrc.opnd (X86Opnd.memLoc 0), X86Opnd.memLoc 1⟩ (X86Opnd.memLoc 0)
      rfl (by decide) (by decide)⟩

theorem phiTypesConsistent_head (values : List PhiVal)
    (h : phiTypesConsistent values = true) :
    ∀ u ∈ values, ∀ v0, values.head? = some v0 → u.type = v0.type := by
  induction values with
  | nil => intro u hu; cases hu
  | cons a rest ih =>
    intro u hu v0 hv0
    simp only [List.head?_cons, Option.some.injEq] at hv0
    subst hv0
    cases rest with
    | nil =>
      simp only [List.mem_singleton] at hu
      subst hu
      rfl
    | cons b rest2 =>
      simp only [phiTypesConsistent, Bool.and_eq_true, beq_iff_eq] at h
      obtain ⟨hba, hcons⟩ := h
      rcases List.mem_cons.mp hu with rfl | hu2
      · rfl
      · have hb := ih (by simp [phiTypesConsistent, hcons]) u hu2 b (by simp)
        rw [hb, hba]

/-- **C2** Phi type invariant: `phi([])` constructs with output type `none`;
the first `addIncoming` on an empty phi sets the output type to the incoming
value's type; on a phi satisfying the invariant, `addIncoming` with a value
whose type differs from the inputs' common type (the phi's type) fails;
construction establishes the invariant, and every successful `addIncoming`
preserves it — in particular `uses` and `preds` stay equal in length and all
input types equal the phi's output type. -/
theorem phiInstr_type_invariant :
    (∃ phi0, PhiInstr.construct [] [] = some phi0 ∧ phi0.type = IRType.none) ∧
    (∀ (phi : PhiInstr) (v : PhiVal) (p : Nat), phi.uses = [] →
      PhiInstr.addIncoming phi v p =
        some ⟨[v], phi.preds ++ [p], v.type⟩) ∧
    (∀ (phi : PhiInstr) (v : PhiVal) (p : Nat), phi.WF → phi.uses ≠ [] →
      v.type ≠ phi.type → PhiInstr.addIncoming phi v p = Option.none) ∧
    (∀ values preds phi, PhiInstr.construct values preds = some phi → phi.WF) ∧
    (∀ (phi : PhiInstr) (v : PhiVal) (p : Nat) (phi2 : PhiInstr), phi.WF →
      PhiInstr.addIncoming phi v p = some phi2 → phi2.WF) := by
  refine ⟨⟨⟨[], [], IRType.none⟩, by decide, rfl⟩, ?_, ?_, ?_, ?_⟩
  · intro phi v p hempty
    unfold PhiInstr.addIncoming
    rw [hempty]
    rfl
  · intro phi v p hwf hne hty
    unfold PhiInstr.addIncoming
    cases hu : phi.uses with
    | nil => exact absurd hu hne
    | cons u0 rest =>
      simp only [List.head?_cons]
      rw [if_neg]
      intro hcontra
      have hu0 : u0.type = phi.type := hwf.2.1 u0 (by rw [hu]; exact List.mem_cons_self _ _)
      exact hty (hcontra.trans hu0)
  · intro values preds phi hc
    unfold PhiInstr.construct at hc
    split at hc
    next hlen =>
      split at hc
      next hcons =>
        injection hc with h
        subst h
        refine ⟨hlen, ?_, ?_⟩
        · intro u hu
          cases hv : values.head? with
          | none =>
            rw [List.head?_eq_none_iff] at hv
            subst hv
            cases hu
          | some v0 =>
            exact phiTypesConsistent_head values hcons u hu v0 hv
        · intro hempty
          subst hempty
          rfl
      next => exact absurd hc (by simp)
    next => exact absurd hc (by simp)
  · intro phi v p phi2 hwf hadd
    unfold PhiInstr.addIncoming at hadd
    cases hh : phi.uses.head? with
    | none =>
      simp only [hh] at hadd
      injection hadd with h
      subst h
      have hu : phi.uses = [] := List.head?_eq_none_iff.mp hh
      have hpreds : phi.preds = [] := by
        have := hwf.1
        rw [hu] at this
        exact List.length_eq_zero.mp this.symm
      refine ⟨?_, ?_, ?_⟩
      · simp [hu, hpreds]
      · intro u hudef
        simp only [hu, List.nil_append, List.mem_singleton] at hudef
        subst hudef
        rfl
      · intro hcontra
        simp at hcontra
    | some u0 =>
      simp only [hh] at hadd
      split at hadd
      next heq =>
        injection hadd with h
        subst h
        refine ⟨?_, ?_, ?_⟩
        · simp [hwf.1]
        · intro u hudef
          simp only [List.mem_append, List.mem_singleton] at hudef
          rcases hudef with hin | rfl
          · exact hwf.2.1 u hin
          · have hu0 : u0.type = phi.type :=
              hwf.2.1 u0 (List.mem_of_mem_head? hh)
            exact heq.trans hu0
        · intro hcontra
          simp at hcontra
      next => exact absurd hadd (by simp)

theorem phiInstr_type_invariant_witness :
    PhiInstr.addIncoming ⟨[⟨IRType.box⟩], [4], IRType.box⟩ ⟨IRType.i32⟩ 5 =
      Option.none ∧
    PhiInstr.addIncoming ⟨[], [], IRType.none⟩ ⟨IRType.box⟩ 4 =
      some ⟨[⟨IRType.box⟩], [4], IRType.box⟩ ∧
    PhiInstr.WF ⟨[⟨IRType.box⟩, ⟨IRType.box⟩], [4, 5], IRType.box⟩ :=
  ⟨phiInstr_type_invariant.2.2.1 ⟨[⟨IRType.box⟩], [4], IRType.box⟩ ⟨IRType.i32⟩ 5
      ⟨rfl, by decide, by decide⟩ (by decide) (by decide),
   phiInstr_type_invariant.2.1 ⟨[], [], IRType.none⟩ ⟨IRType.box⟩ 4 rfl,
   phiInstr_type_invariant.2.2.2.2 ⟨[⟨IRType.box⟩], [4], IRType.box⟩ ⟨IRType.box⟩ 5
      ⟨[⟨IRType.box⟩, ⟨IRType.box⟩], [4, 5], IRType.box⟩
      ⟨rfl, by decide, by decide⟩ (by decide)⟩

theorem alistLookup_update {α β : Type} [DecidableEq α]
    (l : List (α × β)) (k k' : α) (v : β) :
    alistLookup (alistUpdate l k v) k' =
      if k' = k ∧ (alistLookup l k).isSome = true then some v
      else alistLookup l k' := by
  induction l with
  | nil => simp [alistUpdate, alistLookup]
  | cons kv rest ih =>
    obtain ⟨a, b⟩ := kv
    by_cases hka : k = a
    · subst hka
      by_cases hk' : k' = k <;> simp [alistUpdate, alistLookup, hk']
    · simp only [alistUpdate, if_neg hka, alistLookup]
      by_cases hk' : k' = a
      · subst hk'
        have hne : ¬ k' = k := fun h => hka h.symm
        simp [alistLookup, hne]
      · simp only [if_neg hk', ih]

theorem getConst_found {s : ConstState} {v : JSVal} {t : IRType} {c : Nat}
    (hh : s.Holds v t c) : ConstValue.getConst v t s = some (c, s) := by
  obtain ⟨tm, h1, h2⟩ := hh
  unfold ConstValue.getConst
  simp only [h1, h2]

theorem getConst_found_eq {s s' : ConstState} {v : JSVal} {t : IRType} {c c' : Nat}
    (hh : s.Holds v t c') (h : ConstValue.getConst v t s = some (c, s')) :
    c = c' ∧ s' = s := by
  have h2 := h.symm.trans (getConst_found hh)
  simp only [Option.some.injEq, Prod.mk.injEq] at h2
  exact ⟨h2.1, h2.2⟩

theorem getConst_new {s s' : ConstState} {v : JSVal} {t : IRType} {c : Nat}
    (hmiss : ∀ c0, ¬ s.Holds v t c0)
    (h : ConstValue.getConst v t s = some (c, s')) :
    c = s.nextId ∧ s'.nextId = s.nextId + 1 ∧
    (∀ v' t' c', s'.Holds v' t' c' ↔
      ((v' = v ∧ t' = t ∧ c' = s.nextId) ∨ s.Holds v' t' c')) := by
  unfold ConstValue.getConst at h
  cases hm : alistLookup s.constMap v with
  | some typeMap =>
    simp only [hm] at h
    cases ht : alistLookup typeMap t with
    | some c0 => exact absurd ⟨typeMap, hm, ht⟩ (hmiss c0)
    | none =>
      simp only [ht] at h
      split at h
      next hvalid =>
        simp only [Option.some.injEq, Prod.mk.injEq] at h
        obtain ⟨rfl, rfl⟩ := h
        refine ⟨rfl, rfl, ?_⟩
        intro v' t' c'
        constructor
        · rintro ⟨tm', h1, h2⟩
          rw [alistLookup_update] at h1
          by_cases hv' : v' = v
          · rw [if_pos ⟨hv', by rw [hm]; rfl⟩] at h1
            have htm : (t, s.nextId) :: typeMap = tm' := Option.some.inj h1
            rw [← htm] at h2
            simp only [alistLookup] at h2
            by_cases ht' : t' = t
            · rw [if_pos ht'] at h2
              exact Or.inl ⟨hv', ht', (Option.some.inj h2).symm⟩
            · rw [if_neg ht'] at h2
              exact Or.inr ⟨typeMap, hv' ▸ hm, h2⟩
          · rw [if_neg (fun hc => hv' hc.1)] at h1
            exact Or.inr ⟨tm', h1, h2⟩
        · rintro (⟨hv', ht', hc'⟩ | ⟨tm', h1, h2⟩)
          · refine ⟨(t, s.nextId) :: typeMap, ?_, ?_⟩
            · rw [hv', alistLookup_update, if_pos ⟨rfl, by rw [hm]; rfl⟩]
            · rw [ht', hc']
              simp [alistLookup]
          · by_cases hv' : v' = v
            · have h1' : alistLookup s.constMap v = some tm' := hv' ▸ h1
              rw [hm] at h1'
              have htm : typeMap = tm' := Option.some.inj h1'
              refine ⟨(t, s.nextId) :: typeMap, ?_, ?_⟩
              · rw [hv', alistLookup_update, if_pos ⟨rfl, by rw [hm]; rfl⟩]
              · have ht' : ¬ t' = t := by
                  intro hc
                  rw [← htm, hc, ht] at h2
                  exact Option.noConfusion h2
                simp only [alistLookup, if_neg ht']
                rw [htm]
                exact h2
            · refine ⟨tm', ?_, h2⟩
              rw [alistLookup_update, if_neg (fun hc => hv' hc.1)]
              exact h1
      next => exact absurd h (by simp)
  | none =>
    simp only [hm] at h
    split at h
    next hvalid =>
      simp only [Option.some.injEq, Prod.mk.injEq] at h
      obtain ⟨rfl, rfl⟩ := h
      refine ⟨rfl, rfl, ?_⟩
      intro v' t' c'
      constructor
      · rintro ⟨tm', h1, h2⟩
        simp only [alistLookup] at h1
        by_cases hv' : v' = v
        · rw [if_pos hv'] at h1
          have htm : [(t, s.nextId)] = tm' := Option.some.inj h1
          rw [← htm] at h2
          simp only [alistLookup] at h2
          by_cases ht' : t' = t
          · rw [if_pos ht'] at h2
            exact Or.inl ⟨hv', ht', (Option.some.inj h2).symm⟩
          · rw [if_neg ht'] at h2
            exact Option.noConfusion h2
        · rw [if_neg hv'] at h1
          exact Or.inr ⟨tm', h1, h2⟩
      · rintro (⟨hv', ht', hc'⟩ | ⟨tm', h1, h2⟩)
        · refine ⟨[(t, s.nextId)], ?_, ?_⟩
          · rw [hv']
            simp [alistLookup]
          · rw [ht', hc']
            simp [alistLookup]
        · have hv' : ¬ v' = v := by
            intro hc
            rw [hc, hm] at h1
            exact Option.noConfusion h1
          exact ⟨tm', by simp [alistLookup, hv', h1], h2⟩
    next => exact absurd h (by simp)

theorem getConst_holds {s s' : ConstState} {v : JSVal} {t : IRType} {c : Nat}
    (h : ConstValue.getConst v t s = some (c, s')) : s'.Holds v t c := by
  by_cases hex : ∃ c0, s.Holds v t c0
  · obtain ⟨c0, hc0⟩ := hex
    obtain ⟨rfl, rfl⟩ := getConst_found_eq hc0 h
    exact hc0
  · push_neg at hex
    obtain ⟨rfl, -, hiff⟩ := getConst_new hex h
    exact (hiff v t s.nextId).mpr (Or.inl ⟨rfl, rfl, rfl⟩)

theorem getConst_mono {s s' : ConstState} {v v' : JSVal} {t t' : IRType} {c c' : Nat}
    (hold : s.Holds v' t' c') (h : ConstValue.getConst v t s = some (c, s')) :
    s'.Holds v' t' c' := by
  by_cases hex : ∃ c0, s.Holds v t c0
  · obtain ⟨c0, hc0⟩ := hex
    obtain ⟨-, rfl⟩ := getConst_found_eq hc0 h
    exact hold
  · push_neg at hex
    obtain ⟨-, -, hiff⟩ := getConst_new hex h
    exact (hiff v' t' c').mpr (Or.inr hold)

theorem getConst_WF {s s' : ConstState} {v : JSVal} {t : IRType} {c : Nat}
    (hwf : s.WF) (h : ConstValue.getConst v t s = some (c, s')) : s'.WF := by
  by_cases hex : ∃ c0, s.Holds v t c0
  · obtain ⟨c0, hc0⟩ := hex
    obtain ⟨-, rfl⟩ := getConst_found_eq hc0 h
    exact hwf
  · push_neg at hex
    obtain ⟨-, hnid, hiff⟩ := getConst_new hex h
    constructor
    · intro v' t' c' h'
      rw [hiff] at h'
      rcases h' with ⟨-, -, rfl⟩ | hold
      · rw [hnid]
        exact Nat.lt_succ_self _
      · rw [hnid]
        exact Nat.lt_succ_of_lt (hwf.1 v' t' c' hold)
    · intro v₁ t₁ v₂ t₂ c0 h₁ h₂
      rw [hiff] at h₁ h₂
      rcases h₁ with ⟨rfl, rfl, rfl⟩ | hold₁
      · rcases h₂ with ⟨rfl, rfl, -⟩ | hold₂
        · exact ⟨rfl, rfl⟩
        · exact absurd (hwf.1 _ _ _ hold₂) (Nat.lt_irrefl _)
      · rcases h₂ with ⟨rfl, rfl, rfl⟩ | hold₂
        · exact absurd (hwf.1 _ _ _ hold₁) (Nat.lt_irrefl _)
        · exact hwf.2 v₁ t₁ v₂ t₂ c0 hold₁ hold₂

theorem reachable_mono {s s' : ConstState} {v : JSVal} {t : IRType} {c : Nat}
    (hr : ConstState.Reachable s s') (hold : s.Holds v t c) : s'.Holds v t c := by
  induction hr with
  | refl => exact hold
  | tail hh hstep ih =>
    obtain ⟨v0, t0, c0, hget⟩ := hstep
    exact getConst_mono ih hget

theorem reachable_WF {s s' : ConstState}
    (hwf : s.WF) (hr : ConstState.Reachable s s') : s'.WF := by
  induction hr with
  | refl => exact hwf
  | tail hh hstep ih =>
    obtain ⟨v0, t0, c0, hget⟩ := hstep
    exact getConst_WF ih hget

theorem constState_empty_WF : ConstState.empty.WF := by
  constructor
  · rintro v t c ⟨tm, h1, -⟩
    exact Option.noConfusion h1
  · rintro v₁ t₁ v₂ t₂ c ⟨tm, h1, -⟩
    exact Option.noConfusion h1

/-- **C1** Constant uniquing: starting from a well-formed uniquing table, if
`getConst(v, t₁)` returns constant `c₁` and — after any further sequence of
`getConst` calls — `getConst(v, t₂)` returns constant `c₂`, then the two
calls return the identical constant object exactly when `t₁` and `t₂` are
the same type object; in particular the same literal at two different types
yields two distinct constants. -/
theorem constValue_getConst_uniquing
    (s s₁ s₂ s₃ : ConstState) (v : JSVal) (t₁ t₂ : IRType) (c₁ c₂ : Nat)
    (hWF : s.WF)
    (h1 : ConstValue.getConst v t₁ s = some (c₁, s₁))
    (hreach : ConstState.Reachable s₁ s₂)
    (h2 : ConstValue.getConst v t₂ s₂ = some (c₂, s₃)) :
    (t₁ = t₂ → c₁ = c₂) ∧ (t₁ ≠ t₂ → c₁ ≠ c₂) := by
  have hWF1 : s₁.WF := getConst_WF hWF h1
  have hWF2 : s₂.WF := reachable_WF hWF1 hreach
  have hWF3 : s₃.WF := getConst_WF hWF2 h2
  have hh1 : s₁.Holds v t₁ c₁ := getConst_holds h1
  have hh2 : s₂.Holds v t₁ c₁ := reachable_mono hreach hh1
  constructor
  · rintro rfl
    exact ((getConst_found_eq hh2 h2).1).symm
  · intro hne hcc
    have hh3 : s₃.Holds v t₂ c₂ := getConst_holds h2
    have hh3' : s₃.Holds v t₁ c₁ := getConst_mono hh2 h2
    obtain ⟨-, hts⟩ := hWF3.2 v t₁ v t₂ c₁ hh3' (hcc ▸ hh3)
    exact hne hts

theorem constValue_getConst_uniquing_witness :
    (IRType.box = IRType.i32 → (0 : Nat) = 1) ∧
    (IRType.box ≠ IRType.i32 → (0 : Nat) ≠ 1) :=
  constValue_getConst_uniquing ConstState.empty
    ⟨[(JSVal.num 0, [(IRType.box, 0)])], 1⟩
    ⟨[(JSVal.num 0, [(IRType.box, 0)])], 1⟩
    ⟨[(JSVal.num 0, [(IRType.i32, 1), (IRType.box, 0)])], 2⟩
    (JSVal.num 0) IRType.box IRType.i32 0 1
    constState_empty_WF (by decide) Relation.ReflTransGen.refl (by decide)

theorem foldl_append_eq {α β : Type} (f : α → List β) (l : List α) (acc : List β) :
    l.foldl (fun a x => a ++ f x) acc = acc ++ (l.map f).flatten := by
  induction l generalizing acc with
  | nil => simp
  | cons x rest ih => simp [ih]

theorem flatten_map_singleton {α β : Type} (g : α → β) (l : List α) :
    (l.map (fun x => [g x])).flatten = l.map g := by
  induction l with
  | nil => simp
  | cons x rest ih => simp [ih]

theorem x86insertEdgeTrans_eq (mergeMoves : Nat → Nat → List Nat)
    (asm : List AsmItem) (pred succ : Nat) :
    x86insertEdgeTrans mergeMoves asm pred succ =
      asm ++ specEdgeStub mergeMoves pred succ := by
  simp only [x86insertEdgeTrans, specEdgeStub]
  rw [foldl_append_eq (fun m => [AsmItem.move m]), flatten_map_singleton]
  simp

theorem x86emitBlock_eq (env : Nat → BlockInfo) (preMoves : Nat → List Nat)
    (mergeMoves : Nat → Nat → List Nat) (asm : List AsmItem) (blockId : Nat)
    (hWF : ∀ p ∈ (env blockId).preds, (env p).succs ≠ []) :
    x86emitBlock env preMoves mergeMoves asm blockId =
      asm ++ specBlockChunk env preMoves mergeMoves blockId := by
  have hfold1 : ∀ (ps : List Nat) (acc : List AsmItem), (∀ p ∈ ps, (env p).succs ≠ []) →
      ps.foldl (fun a p =>
        if (env p).succs.length = 1 then a
        else x86insertEdgeTrans mergeMoves a p blockId) acc =
      acc ++ ((ps.filter (fun p => (env p).succs.length > 1)).map
        (fun p => specEdgeStub mergeMoves p blockId)).flatten := by
    intro ps
    induction ps with
    | nil => intro acc h; simp
    | cons p rest ih =>
      intro acc h
      by_cases h1 : (env p).succs.length = 1
      · have hng : ¬ (env p).succs.length > 1 := by omega
        simp only [List.foldl_cons, List.filter_cons]
        rw [if_pos h1, if_neg (by simp [hng])]
        exact ih acc (fun q hq => h q (List.mem_cons_of_mem _ hq))
      · have hpos : (env p).succs.length ≠ 0 := by
          intro hc
          exact h p (List.mem_cons_self _ _) (List.length_eq_zero.mp hc)
        have hgt : (env p).succs.length > 1 := by omega
        simp only [List.foldl_cons, List.filter_cons]
        rw [if_neg h1, if_pos (by simp [hgt])]
        simp only [List.map_cons, List.flatten_cons]
        rw [x86insertEdgeTrans_eq, ih (acc ++ specEdgeStub mergeMoves p blockId)
          (fun q hq => h q (List.mem_cons_of_mem _ hq))]
        simp
  have hfold2 : ∀ (instrs : List (Nat × Bool)) (acc : List AsmItem),
      instrs.foldl (fun a instr =>
        if instr.2 then a
        else ((preMoves instr.1).foldl (fun a' m => a' ++ [AsmItem.move m]) a) ++
          [AsmItem.code instr.1]) acc =
      acc ++ specInstrCode preMoves instrs := by
    intro instrs
    induction instrs with
    | nil => intro acc; simp [specInstrCode]
    | cons i rest ih =>
      intro acc
      by_cases hp : i.2 = true
      · simp only [List.foldl_cons, specInstrCode, List.filter_cons]
        rw [if_pos hp, if_neg (by simp [hp])]
        exact ih acc
      · have hp' : i.2 = false := by revert hp; cases i.2 <;> simp
        simp only [List.foldl_cons, specInstrCode, List.filter_cons]
        rw [if_neg hp, if_pos (by simp [hp'])]
        simp only [List.map_cons, List.flatten_cons]
        rw [foldl_append_eq (fun m => [AsmItem.move m]), flatten_map_singleton]
        rw [ih (acc ++ List.map AsmItem.move (preMoves i.1) ++ [AsmItem.code i.1])]
        simp [specInstrCode]

  simp only [x86emitBlock, specBlockChunk]
  rw [hfold1 (env blockId).preds asm hWF]
  rw [hfold2]
  cases hsuccs : (env blockId).succs with
  | nil => simp
  | cons s rest =>
    cases rest with
    | nil => simp [x86insertEdgeTrans_eq]
    | cons s2 rest2 => simp

/-- **C7** Edge-transition emission: for any CFG environment in which every
predecessor of an ordered block has at least one successor (true of every
real CFG), the block loop of `x86.irToASM` appends, for each block of the
ordering in turn: one edge-transition stub for each predecessor with more
than one successor, then the block's label, then the block's instruction
code (pre-moves before each non-pseudo instruction's code), then — when the
block has exactly one successor — that edge's transition stub directly after
the block's instructions; where every stub is the edge label, followed by
the edge's merge moves in order, followed by a jump to the successor's block
label. -/
theorem irToASM_edge_transition_emission
    (env : Nat → BlockInfo) (preMoves : Nat → List Nat)
    (mergeMoves : Nat → Nat → List Nat)
    (blockOrder : List Nat) (asm0 : List AsmItem)
    (hWF : ∀ b ∈ blockOrder, ∀ p ∈ (env b).preds, (env p).succs ≠ []) :
    x86irToASM env preMoves mergeMoves blockOrder asm0 =
      asm0 ++ (blockOrder.map (specBlockChunk env preMoves mergeMoves)).flatten := by
  induction blockOrder generalizing asm0 with
  | nil => simp [x86irToASM]
  | cons b rest ih =>
    unfold x86irToASM at ih ⊢
    rw [List.foldl_cons,
      x86emitBlock_eq env preMoves mergeMoves asm0 b (hWF b (List.mem_cons_self _ _)),
      ih (asm0 ++ specBlockChunk env preMoves mergeMoves b)
        (fun b' hb' => hWF b' (List.mem_cons_of_mem _ hb'))]
    simp

theorem irToASM_edge_transition_emission_witness :
    x86irToASM
      (fun b => if b = 0 then ⟨[], [1, 2], [(10, false)]⟩
        else if b = 1 then ⟨[0], [2], [(11, false)]⟩
        else ⟨[0, 1], [], [(12, true)]⟩)
      (fun i => if i = 10 then [100] else [])
      (fun p s => [p * 10 + s])
      [0, 1, 2] [] =
    [] ++ (([0, 1, 2].map (specBlockChunk
      (fun b => if b = 0 then ⟨[], [1, 2], [(10, false)]⟩
        else if b = 1 then ⟨[0], [2], [(11, false)]⟩
        else ⟨[0, 1], [], [(12, true)]⟩)
      (fun i => if i = 10 then [100] else [])
      (fun p s => [p * 10 + s]))).flatten) :=
  irToASM_edge_transition_emission
    (fun b => if b = 0 then ⟨[], [1, 2], [(10, false)]⟩
      else if b = 1 then ⟨[0], [2], [(11, false)]⟩
      else ⟨[0, 1], [], [(12, true)]⟩)
    (fun i => if i = 10 then [100] else [])
    (fun p s => [p * 10 + s])
    [0, 1, 2] [] (by decide)

end Tachyon
